import Mathlib

/-!
Verification of the EPI machine-learning repository's core: the
class-balanced ensemble sampler (`rfsubsample.py`), the PU metrics
(`creonmetrics.py`), and the multi-metric scorer / nested-result
aggregator (`frankenscorer.py`), shallowly embedded in Lean.

Conventions: labels are integers with -1 = unlabeled, 0 = negative,
1 = positive.  Real-valued computation is modelled over `ℚ`; a float
division whose denominator is zero (which numpy turns into NaN/inf with
a runtime warning, not an exception) is modelled as `Option.none`.  The
pseudo-random stream of `numpy.random.RandomState` is modelled by an
explicit linear congruential generator threaded through the draws; only
the contract of `sklearn.utils.random.choice` matters to the claims:
draw `size` items with or without replacement, raising `ValueError`
when a without-replacement draw asks for more items than the population
holds, or when the population is empty.
-/

namespace EPI

/-- Linear congruential step standing in for the numpy random stream. -/
def lcg (s : Nat) : Nat := (s * 1103515245 + 12345) % 2147483648

/-- Source `sklearn.utils.random.choice(pool, size, replace=False, random_state)`:
draws `size` positions from `pool` without replacement, threading the
random stream; `none` models the `ValueError` numpy raises when `size`
exceeds the population size. -/
def choiceNoRep : List Nat → Nat → Nat → Option (List Nat × Nat)
  | _, 0, s => some ([], s)
  | pool, k+1, s =>
      if pool.length = 0 then none
      else
        let s' := lcg s
        let i := s' % pool.length
        match choiceNoRep (pool.eraseIdx i) k s' with
        | none => none
        | some (rest, s2) => some (pool.getD i 0 :: rest, s2)

/-- Source `choice(pool, size, replace=True, random_state)`: `none` models the
`ValueError` raised on an empty population. -/
def choiceRep : List Nat → Nat → Nat → Option (List Nat × Nat)
  | _, 0, s => some ([], s)
  | pool, k+1, s =>
      if pool.length = 0 then none
      else
        let s' := lcg s
        match choiceRep pool k s' with
        | none => none
        | some (rest, s2) => some (pool.getD (s' % pool.length) 0 :: rest, s2)

/-- Index positions of label `c` in `y` (`np.where(y == c)[0]`). -/
def idxsOf (y : List Int) (c : Int) : List Nat :=
  (List.range y.length).filter (fun i => y.getD i 0 == c)

/-- Source `np.unique(y)`: the distinct labels in ascending order. -/
def uniqVals (y : List Int) : List Int :=
  List.insertionSort (· ≤ ·) y.dedup

/-- Source `_generate_class_indices(y)`: one index list per distinct label. -/
def generate_class_indices (y : List Int) : List (List Nat) :=
  (uniqVals y).map (idxsOf y)

/-- Helper for `np.argmin`: first position of the minimum. -/
def argminAux : List Nat → Nat → Nat → Nat → Nat
  | [], _, best, _ => best
  | x :: xs, i, best, bestV =>
      if x < bestV then argminAux xs (i+1) i x else argminAux xs (i+1) best bestV

/-- Source `np.argmin` on a list of naturals (first position of the minimum). -/
def argminL : List Nat → Nat
  | [] => 0
  | x :: xs => argminAux xs 1 0 x

/-- Helper for `np.argmax`: first position of the maximum. -/
def argmaxAux : List Nat → Nat → Nat → Nat → Nat
  | [], _, best, _ => best
  | x :: xs, i, best, bestV =>
      if bestV < x then argmaxAux xs (i+1) i x else argmaxAux xs (i+1) best bestV

/-- Source `np.argmax` on a list of naturals (first position of the maximum). -/
def argmaxL : List Nat → Nat
  | [] => 0
  | x :: xs => argmaxAux xs 1 0 x

/-- Source `class_len = [len(class_idx) for class_idx in class_idxs]`. -/
def classLens (y : List Int) : List Nat :=
  (generate_class_indices y).map List.length

/-- Source `class_idxs[minority_class_idx]` where
`minority_class_idx = np.argmin(class_len)`. -/
def minorityIdxs (y : List Int) : List Nat :=
  (generate_class_indices y).getD (argminL (classLens y)) []

/-- Source `class_idxs[majority_class_idx]` where
`majority_class_idx = np.argmax(class_len)`. -/
def majorityIdxs (y : List Int) : List Nat :=
  (generate_class_indices y).getD (argmaxL (classLens y)) []

/-- Source `min_samples = class_len[minority_class_idx]`. -/
def minCount (y : List Int) : Nat := (minorityIdxs y).length

/-- Python `int()` applied to a real number: truncation toward zero,
here of an exact rational. -/
def pyTrunc (q : ℚ) : Int := if q < 0 then -⌊-q⌋ else ⌊q⌋

/-- Source `maj_samples = int(min_samples / target_imbalance_ratio)`: Python
`int()` truncates toward zero; the float division is modelled exactly
over `ℚ`. -/
def majSamples (y : List Int) (ρ : ℚ) : Nat :=
  (pyTrunc ((minCount y : ℚ) / ρ)).toNat

/-- The majority-class draw inside `_generate_sample_indices`:
`choice(class_idxs[majority_class_idx], size=maj_samples, replace=False)`.
`none` models a raised `ValueError`. -/
def generate_maj_indices (seed : Nat) (y : List Int) (ρ : ℚ) :
    Option (List Nat × Nat) :=
  if y.length = 0 then none
  else choiceNoRep (majorityIdxs y) (majSamples y ρ) seed

/-- Source `_generate_sample_indices(random_state, y, target_imbalance_ratio)`:
concatenates all minority indices with the without-replacement majority
draw and bootstraps (with replacement) `min_samples + maj_samples`
indices from that pool.  `none` models a raised `ValueError` (empty
input, or an infeasible without-replacement draw). -/
def generate_sample_indices (seed : Nat) (y : List Int) (ρ : ℚ) :
    Option (List Nat) :=
  if y.length = 0 then none
  else
    match choiceNoRep (majorityIdxs y) (majSamples y ρ) seed with
    | none => none
    | some (majIndices, s1) =>
        let pool := minorityIdxs y ++ majIndices
        match choiceRep pool (minCount y + majSamples y ρ) s1 with
        | none => none
        | some (plan, _) => some plan

/-- The errors `RandomForestSubsample.fit` can raise before (or while)
fitting: `bootstrap=False`, a target imbalance ratio outside `(0.1, 1]`,
shrinking the tree count under warm start, and the `ValueError`
propagated out of an infeasible per-tree sampling draw. -/
inductive FitError where
  | bootstrapFalse
  | badRatio
  | shrinkWarmStart
  | samplingInfeasible
deriving DecidableEq, Repr

/-- The state of a `RandomForestSubsample` estimator relevant to `fit`:
its configuration plus the fitted trees, each tree represented by the
sample plan it was trained on. -/
structure RFS where
  n_estimators : Nat
  bootstrap : Bool
  warm_start : Bool
  target_imbalance_ratio : ℚ
  estimators_ : List (List Nat)
deriving DecidableEq, Repr

/-- The parallel tree-building loop: one sample plan per new tree, each
tree's random state derived from the forest's stream.  `none` when a
draw raises. -/
def fitTrees : Nat → Nat → List Int → ℚ → Option (List (List Nat))
  | 0, _, _, _ => some []
  | k+1, seed, y, ρ =>
      match generate_sample_indices seed y ρ, fitTrees k (lcg seed) y ρ with
      | some plan, some rest => some (plan :: rest)
      | _, _ => none

/-- Source `RandomForestSubsample.fit`, after input validation: the
configuration checks in source order (`bootstrap`, then the ratio bound
`0.1 < ratio <= 1.0`, then the warm-start tree-count check), the
warm-start no-op warning, and the tree-building loop.  The returned
`Bool` records whether the warm-start no-op warning was emitted.  An
`Except.error` models a `raise` before any tree is appended. -/
def fit (m : RFS) (y : List Int) (seed : Nat) : Except FitError (RFS × Bool) :=
  if m.bootstrap = false then .error .bootstrapFalse
  else if ¬ (1/10 < m.target_imbalance_ratio ∧ m.target_imbalance_ratio ≤ 1) then
    .error .badRatio
  else
    let est0 := if m.warm_start then m.estimators_ else []
    if m.n_estimators < est0.length then .error .shrinkWarmStart
    else if m.n_estimators = est0.length then .ok ({ m with estimators_ := est0 }, true)
    else
      match fitTrees (m.n_estimators - est0.length) seed y m.target_imbalance_ratio with
      | none => .error .samplingInfeasible
      | some ts => .ok ({ m with estimators_ := est0 ++ ts }, false)

/-! ## `creonmetrics.py` -/

/-- Source `tp = sum([t == 1 and p == 1 for t, p in zip(y_true, y_pred)])`. -/
def tpCount (t p : List Int) : Nat :=
  ((t.zip p).filter (fun x => x.1 == 1 && x.2 == 1)).length

/-- Source `n_pos = (y_true == 1).sum() if tp > 0 else 1`. -/
def nPos (t p : List Int) : Nat :=
  if 0 < tpCount t p then t.countP (· == 1) else 1

/-- Source `recall = tp / n_pos` (the denominator is never zero thanks to the
`else 1` guard). -/
def puRecall (t p : List Int) : ℚ := (tpCount t p : ℚ) / (nPos t p : ℚ)

/-- Source `pr_true = (y_pred == 1).sum() / len(y_pred)`. -/
def prOne (p : List Int) : ℚ := (p.countP (· == 1) : ℚ) / (p.length : ℚ)

/-- Source `pu_score(y_true, y_pred) = recall * recall / pr_true`.  When
`pr_true` is zero (no predicted positives, or an empty prediction
vector) the float division yields a non-real value (numpy NaN, with a
runtime warning rather than an exception); that outcome is modelled as
`none`. -/
def pu_score (t p : List Int) : Option ℚ :=
  if prOne p = 0 then none else some (puRecall t p * puRecall t p / prOne p)

/-- Source `prior_squared_error(y_true, y_pred, prior)`: squared gap between
the predicted-positive rate among unlabeled rows and the prior, with the
explicit zero-unlabeled guard returning 0.0. -/
def prior_squared_error (t p : List Int) (prior : ℚ) : ℚ :=
  let unlabeled_pos := ((t.zip p).filter (fun x => x.1 == -1 && x.2 == 1)).length
  let unlabeled_n := t.countP (· == -1)
  if unlabeled_n = 0 then 0
  else ((unlabeled_pos : ℚ) / (unlabeled_n : ℚ) - prior) ^ 2

/-- The module-level names `creonmetrics.py` binds (its imports, its
three metric functions, and its three scorer objects). -/
def creonmetrics_names : List String :=
  ["brier_score_loss", "make_scorer", "pu_score", "prior_squared_error",
   "brier_score_labeled_loss", "pu_scorer", "prior_squared_error_scorer_015",
   "brier_score_labeled_loss_scorer"]

/-- The names `frankenscorer.py` line 16 imports from `creonmetrics`. -/
def frankenscorer_creon_imports : List String :=
  ["labeled_metric", "assumed_metric", "pu_score", "pr_one_unlabeled",
   "brier_score_partial_loss"]

/-- Loading the `frankenscorer` module: Python resolves every imported
name at module-load time; one unresolvable name raises `ImportError`
and the module (hence every function and class in it) never becomes
available. -/
def frankenscorerModuleLoad : Except String Unit :=
  if frankenscorer_creon_imports.all (fun n => creonmetrics_names.contains n) then
    .ok ()
  else .error "ImportError: cannot import name from creonmetrics"

/-! ## `frankenscorer.py` -/

/-- A metric value in a score dictionary: a scalar, or a 2x2
confusion-matrix-shaped array given in `ravel()` order
`(tn, fp, fn, tp)`. -/
inductive Val where
  | scalar : ℚ → Val
  | mat : ℚ → ℚ → ℚ → ℚ → Val
deriving DecidableEq, Repr

/-- Source `FrankenScorer.score_index`. -/
def score_index : String := "SCORE"

/-- The per-entry body of the flattening loop in
`extract_scores_from_nested` (and, with a split/type suffix on the key,
`extract_score_grid`): a 2x2-shaped value is decomposed into four
`tn_`/`fp_`/`fn_`/`tp_` columns, and — by a second, independent `if`
(not an `elif`) — every entry whose key is not `SCORE` is also stored
under its own name. -/
def extractEntry (k : String) (v : Val) : List (String × Val) :=
  (match v with
   | .mat tn fp fn tp =>
       [("tn_" ++ k, .scalar tn), ("fp_" ++ k, .scalar fp),
        ("fn_" ++ k, .scalar fn), ("tp_" ++ k, .scalar tp)]
   | .scalar _ => []) ++
  (if k = score_index then [] else [(k, v)])

/-- One split's score dictionary flattened into columns (the dictionary
is modelled as an association list with distinct keys). -/
def extractSplitDict : List (String × Val) → List (String × Val)
  | [] => []
  | (k, v) :: rest => extractEntry k v ++ extractSplitDict rest

/-- Source `extract_scores_from_nested(scores)`: one flattened row per split
dictionary. -/
def extract_scores_from_nested (scores : List (List (String × Val))) :
    List (List (String × Val)) :=
  scores.map extractSplitDict

/-- The amended claim's per-entry flattening, written from its words: a
2x2 value contributes its four decomposed columns and, unless its key
is `SCORE`, also itself under its own name; a scalar contributes itself
unless its key is `SCORE`. -/
def specExtractEntry (k : String) (v : Val) : List (String × Val) :=
  match v with
  | .mat tn fp fn tp =>
      let dec := [("tn_" ++ k, Val.scalar tn), ("fp_" ++ k, Val.scalar fp),
                  ("fn_" ++ k, Val.scalar fn), ("tp_" ++ k, Val.scalar tp)]
      if k = score_index then dec else dec ++ [(k, v)]
  | .scalar _ => if k = score_index then [] else [(k, v)]

/-- Modelled from the spec (§4.3): `labeled_metric` is imported by the
scorer but missing from the source tree; it restricts both arrays to
the rows where `y_true != Unlabeled (-1)` before applying the metric. -/
def labeledPairs (t p : List Int) : List (Int × Int) :=
  (t.zip p).filter (fun x => x.1 != -1)

/-- Modelled from the spec (§4.3): `assumed_metric` is imported by the
scorer but missing from the source tree; it treats every
`Unlabeled (-1)` row as `Negative (0)` and applies the metric to the
full set. -/
def assumedPairs (t p : List Int) : List (Int × Int) :=
  (t.zip p).map (fun x => (if x.1 == -1 then 0 else x.1, x.2))

/-- sklearn's `confusion_matrix` on binary 0/1 data (external
collaborator), in `ravel()` order `[tn, fp, fn, tp]`:
`tn` counts `(0,0)`, `fp` counts `(0,1)`, `fn` counts `(1,0)`,
`tp` counts `(1,1)`. -/
def confusionMat (pairs : List (Int × Int)) : Val :=
  .mat (pairs.countP (fun x => x.1 == 0 && x.2 == 0) : ℚ)
      (pairs.countP (fun x => x.1 == 0 && x.2 == 1) : ℚ)
      (pairs.countP (fun x => x.1 == 1 && x.2 == 0) : ℚ)
      (pairs.countP (fun x => x.1 == 1 && x.2 == 1) : ℚ)

/-- Source `s[:-1]`: a column name with its single-character split index
stripped, as the grouping key of `extract_score_grid`. -/
def stripSplit (s : String) : String := s.dropRight 1

/-- Source `score_labels = set([s[:-1] for s in score_grid.columns])`. -/
def scoreLabels (cols : List (String × ℚ)) : List String :=
  ((cols.map (fun c => stripSplit c.1)).dedup)

/-- The columns of one row whose stripped name equals `label`
(`[s for s in score_grid.columns if label == s[:-1]]`). -/
def groupCols (cols : List (String × ℚ)) (label : String) : List ℚ :=
  (cols.filter (fun c => stripSplit c.1 == label)).map Prod.snd

/-- Source `DataFrame.mean(axis=1)` on one row's group of columns. -/
def meanQ (xs : List ℚ) : ℚ := xs.sum / (xs.length : ℚ)

/-- The square of `DataFrame.std(axis=1)` (pandas default `ddof=1`, the
sample standard deviation) on one row's group of columns; `none` models
the NaN pandas produces for fewer than two columns.  The standard
deviation itself, an irrational square root, is characterised through
this square. -/
def sampleVar (xs : List ℚ) : Option ℚ :=
  if 2 ≤ xs.length then
    some ((xs.map (fun x => (x - meanQ xs) ^ 2)).sum / ((xs.length - 1 : Nat) : ℚ))
  else none

/-- The mean/std tail of `extract_score_grid`: for every distinct
stripped column name, the mean and the (squared) sample standard
deviation across that group's split columns, appended as derived
columns. -/
def meanStdCols (cols : List (String × ℚ)) : List (String × ℚ × Option ℚ) :=
  (scoreLabels cols).map
    (fun label => (label, meanQ (groupCols cols label), sampleVar (groupCols cols label)))

/-! ## Helper lemmas -/

theorem getElem_not_mem_eraseIdx (l : List Nat) (i : Nat) (h : i < l.length)
    (hn : l.Nodup) : l[i] ∉ l.eraseIdx i := by
  induction l generalizing i with
  | nil => simp at h
  | cons a t ih =>
      cases i with
      | zero =>
          simp only [List.eraseIdx_cons_zero, List.getElem_cons_zero]
          exact (List.nodup_cons.mp hn).1
      | succ i =>
          simp only [List.eraseIdx_cons_succ, List.getElem_cons_succ, List.mem_cons]
          have h' : i < t.length := by simpa using h
          rintro (heq | hmem)
          · exact (List.nodup_cons.mp hn).1 (heq ▸ List.getElem_mem h')
          · exact ih i h' (List.nodup_cons.mp hn).2 hmem

theorem choiceNoRep_spec (k : Nat) :
    ∀ (pool : List Nat) (s : Nat), k ≤ pool.length →
      ∃ res s2, choiceNoRep pool k s = some (res, s2) ∧ res.length = k ∧
        (∀ x ∈ res, x ∈ pool) ∧ (pool.Nodup → res.Nodup) := by
  induction k with
  | zero => intro pool s _; exact ⟨[], s, rfl, rfl, by simp, fun _ => List.nodup_nil⟩
  | succ k ih =>
      intro pool s hk
      have hpos : 0 < pool.length := Nat.lt_of_lt_of_le (Nat.succ_pos k) hk
      have hne : ¬ pool.length = 0 := Nat.pos_iff_ne_zero.mp hpos
      have hi : lcg s % pool.length < pool.length := Nat.mod_lt _ hpos
      have herase : (pool.eraseIdx (lcg s % pool.length)).length = pool.length - 1 := by
        rw [List.length_eraseIdx, if_pos hi]
      have hk' : k ≤ (pool.eraseIdx (lcg s % pool.length)).length := by omega
      obtain ⟨rest, s2, hrec, hlen, hsub, hnd⟩ := ih (pool.eraseIdx (lcg s % pool.length)) (lcg s) hk'
      refine ⟨pool.getD (lcg s % pool.length) 0 :: rest, s2, ?_, ?_, ?_, ?_⟩
      · simp only [choiceNoRep, if_neg hne, hrec]
      · simp [hlen]
      · intro x hx
        rcases List.mem_cons.mp hx with hx | hx
        · rw [hx, List.getD_eq_getElem pool 0 hi]; exact List.getElem_mem hi
        · exact (List.eraseIdx_sublist pool (lcg s % pool.length)).subset (hsub x hx)
      · intro hnodup
        refine List.nodup_cons.mpr ⟨?_, hnd (hnodup.sublist (List.eraseIdx_sublist ..))⟩
        intro hmem
        rw [List.getD_eq_getElem pool 0 hi] at hmem
        exact getElem_not_mem_eraseIdx pool _ hi hnodup (hsub _ hmem)

theorem choiceNoRep_none (k : Nat) :
    ∀ (pool : List Nat) (s : Nat), pool.length < k → choiceNoRep pool k s = none := by
  induction k with
  | zero => intro pool s h; omega
  | succ k ih =>
      intro pool s h
      by_cases hz : pool.length = 0
      · simp only [choiceNoRep, if_pos hz]
      · have hi : lcg s % pool.length < pool.length := Nat.mod_lt _ (Nat.pos_iff_ne_zero.mpr hz)
        have : (pool.eraseIdx (lcg s % pool.length)).length < k := by
          rw [List.length_eraseIdx, if_pos hi]; omega
        simp only [choiceNoRep, if_neg hz, ih _ (lcg s) this]

theorem choiceRep_spec (k : Nat) :
    ∀ (pool : List Nat) (s : Nat), pool ≠ [] →
      ∃ res s2, choiceRep pool k s = some (res, s2) ∧ res.length = k ∧
        ∀ x ∈ res, x ∈ pool := by
  induction k with
  | zero => intro pool s _; exact ⟨[], s, rfl, rfl, by simp⟩
  | succ k ih =>
      intro pool s hne
      have hpos : 0 < pool.length := List.length_pos.mpr hne
      have hz : ¬ pool.length = 0 := Nat.pos_iff_ne_zero.mp hpos
      have hi : lcg s % pool.length < pool.length := Nat.mod_lt _ hpos
      obtain ⟨rest, s2, hrec, hlen, hsub⟩ := ih pool (lcg s) hne
      refine ⟨pool.getD (lcg s % pool.length) 0 :: rest, s2, ?_, by simp [hlen], ?_⟩
      · simp only [choiceRep, if_neg hz, hrec]
      · intro x hx
        rcases List.mem_cons.mp hx with hx | hx
        · rw [hx, List.getD_eq_getElem pool 0 hi]; exact List.getElem_mem hi
        · exact hsub x hx

theorem mem_idxsOf {y : List Int} {c : Int} {i : Nat} :
    i ∈ idxsOf y c ↔ i < y.length ∧ y.getD i 0 = c := by
  simp [idxsOf, List.mem_filter, List.mem_range]

theorem idxsOf_nodup (y : List Int) (c : Int) : (idxsOf y c).Nodup :=
  (List.nodup_range y.length).filter _

theorem idxsOf_ne_nil {y : List Int} {c : Int} (h : c ∈ y) : idxsOf y c ≠ [] := by
  obtain ⟨n, hn⟩ := List.mem_iff_get.mp h
  have : n.1 ∈ idxsOf y c :=
    mem_idxsOf.mpr ⟨n.2, by rw [List.getD_eq_getElem y 0 n.2]; simpa [List.get_eq_getElem] using hn⟩
  exact fun hnil => by simp [hnil] at this

theorem mem_uniqVals {y : List Int} {c : Int} : c ∈ uniqVals y ↔ c ∈ y := by
  unfold uniqVals
  rw [(List.perm_insertionSort _ y.dedup).mem_iff]
  exact List.mem_dedup

theorem uniqVals_ne_nil {y : List Int} (h : y ≠ []) : uniqVals y ≠ [] := by
  obtain ⟨a, ha⟩ := List.exists_mem_of_ne_nil y h
  intro hnil
  have hm : a ∈ uniqVals y := mem_uniqVals.mpr ha
  rw [hnil] at hm
  simp at hm

theorem argminAux_lt (xs : List Nat) :
    ∀ (i best bestV n : Nat), best < n → i + xs.length ≤ n → argminAux xs i best bestV < n := by
  induction xs with
  | nil => intro i best bestV n hb _; simpa [argminAux] using hb
  | cons x xs ih =>
      intro i best bestV n hb hlen
      have hlen' : i + (xs.length + 1) ≤ n := by simpa using hlen
      simp only [argminAux]
      by_cases hx : x < bestV
      · rw [if_pos hx]; exact ih (i+1) i x n (by omega) (by omega)
      · rw [if_neg hx]; exact ih (i+1) best bestV n hb (by omega)

theorem argminL_lt {l : List Nat} (h : l ≠ []) : argminL l < l.length := by
  cases l with
  | nil => exact absurd rfl h
  | cons x xs => exact argminAux_lt xs 1 0 x (xs.length + 1) (by omega) (by omega)

theorem argmaxAux_lt (xs : List Nat) :
    ∀ (i best bestV n : Nat), best < n → i + xs.length ≤ n → argmaxAux xs i best bestV < n := by
  induction xs with
  | nil => intro i best bestV n hb _; simpa [argmaxAux] using hb
  | cons x xs ih =>
      intro i best bestV n hb hlen
      have hlen' : i + (xs.length + 1) ≤ n := by simpa using hlen
      simp only [argmaxAux]
      by_cases hx : bestV < x
      · rw [if_pos hx]; exact ih (i+1) i x n (by omega) (by omega)
      · rw [if_neg hx]; exact ih (i+1) best bestV n hb (by omega)

theorem argmaxL_lt {l : List Nat} (h : l ≠ []) : argmaxL l < l.length := by
  cases l with
  | nil => exact absurd rfl h
  | cons x xs => exact argmaxAux_lt xs 1 0 x (xs.length + 1) (by omega) (by omega)

theorem classLens_length (y : List Int) :
    (classLens y).length = (generate_class_indices y).length := by
  simp [classLens]

theorem generate_class_indices_ne_nil {y : List Int} (h : y ≠ []) :
    generate_class_indices y ≠ [] := by
  intro hnil
  exact uniqVals_ne_nil h (by simpa [generate_class_indices] using hnil)

theorem mem_generate_class_indices {y : List Int} {l : List Nat}
    (h : l ∈ generate_class_indices y) : ∃ c, c ∈ y ∧ l = idxsOf y c := by
  obtain ⟨c, hc, rfl⟩ := List.mem_map.mp h
  exact ⟨c, mem_uniqVals.mp hc, rfl⟩

theorem minorityIdxs_mem {y : List Int} (h : y ≠ []) :
    minorityIdxs y ∈ generate_class_indices y := by
  have hlt : argminL (classLens y) < (generate_class_indices y).length := by
    rw [← classLens_length]
    exact argminL_lt (fun hn => generate_class_indices_ne_nil h (by
      have := classLens_length y
      rw [hn] at this
      exact List.length_eq_zero.mp this.symm))
  rw [minorityIdxs, List.getD_eq_getElem _ [] hlt]
  exact List.getElem_mem hlt

theorem majorityIdxs_mem {y : List Int} (h : y ≠ []) :
    majorityIdxs y ∈ generate_class_indices y := by
  have hlt : argmaxL (classLens y) < (generate_class_indices y).length := by
    rw [← classLens_length]
    exact argmaxL_lt (fun hn => generate_class_indices_ne_nil h (by
      have := classLens_length y
      rw [hn] at this
      exact List.length_eq_zero.mp this.symm))
  rw [majorityIdxs, List.getD_eq_getElem _ [] hlt]
  exact List.getElem_mem hlt

theorem minorityIdxs_ne_nil {y : List Int} (h : y ≠ []) : minorityIdxs y ≠ [] := by
  obtain ⟨c, hc, heq⟩ := mem_generate_class_indices (minorityIdxs_mem h)
  rw [heq]
  exact idxsOf_ne_nil hc

theorem majorityIdxs_nodup (y : List Int) : (majorityIdxs y).Nodup := by
  by_cases h : y = []
  · subst h
    simp [majorityIdxs, generate_class_indices, uniqVals]
  · obtain ⟨c, _, heq⟩ := mem_generate_class_indices (majorityIdxs_mem h)
    rw [heq]
    exact idxsOf_nodup y c

theorem minorityIdxs_nodup (y : List Int) : (minorityIdxs y).Nodup := by
  by_cases h : y = []
  · subst h
    simp [minorityIdxs, generate_class_indices, uniqVals]
  · obtain ⟨c, _, heq⟩ := mem_generate_class_indices (minorityIdxs_mem h)
    rw [heq]
    exact idxsOf_nodup y c

theorem tpCount_cons (a b : Int) (t p : List Int) :
    tpCount (a :: t) (b :: p) =
      tpCount t p + (if a == 1 && b == 1 then 1 else 0) := by
  simp only [tpCount, List.zip_cons_cons, List.filter_cons]
  split
  · simp [Nat.add_comm]
  · simp

theorem tpCount_le_countP (t : List Int) : ∀ p, tpCount t p ≤ t.countP (· == 1) := by
  induction t with
  | nil => intro p; simp [tpCount]
  | cons a t ih =>
      intro p
      cases p with
      | nil => simp [tpCount]
      | cons b p' =>
          have h := ih p'
          rw [tpCount_cons, List.countP_cons]
          by_cases ha : (a == 1) = true <;> by_cases hb : (b == 1) = true <;>
            simp [ha, hb] <;> omega

theorem puRecall_nonneg (t p : List Int) : 0 ≤ puRecall t p :=
  div_nonneg (Nat.cast_nonneg _) (Nat.cast_nonneg _)

theorem puRecall_le_one (t p : List Int) : puRecall t p ≤ 1 := by
  by_cases h : 0 < tpCount t p
  · have hle : tpCount t p ≤ t.countP (· == 1) := tpCount_le_countP t p
    have hpos : 0 < t.countP (· == 1) := lt_of_lt_of_le h hle
    rw [puRecall, nPos, if_pos h]
    rw [div_le_one (by exact_mod_cast hpos)]
    exact_mod_cast hle
  · have h0 : tpCount t p = 0 := by omega
    simp [puRecall, h0]

theorem countP_four_split (l : List (Int × Int))
    (h : ∀ x ∈ l, (x.1 = 0 ∨ x.1 = 1) ∧ (x.2 = 0 ∨ x.2 = 1)) :
    l.countP (fun x => x.1 == 0 && x.2 == 0) + l.countP (fun x => x.1 == 0 && x.2 == 1) +
      l.countP (fun x => x.1 == 1 && x.2 == 0) + l.countP (fun x => x.1 == 1 && x.2 == 1) =
      l.length := by
  induction l with
  | nil => simp
  | cons a l ih =>
      have ha := h a (List.mem_cons_self a l)
      have ih' := ih (fun x hx => h x (List.mem_cons_of_mem a hx))
      simp only [List.countP_cons, List.length_cons]
      rcases ha.1 with h1 | h1 <;> rcases ha.2 with h2 | h2 <;>
        simp only [h1, h2] <;> norm_num <;> omega

theorem assumedPairs_ranges (t p : List Int)
    (ht : ∀ x ∈ t, x = -1 ∨ x = 0 ∨ x = 1) (hp : ∀ x ∈ p, x = 0 ∨ x = 1) :
    ∀ x ∈ assumedPairs t p, (x.1 = 0 ∨ x.1 = 1) ∧ (x.2 = 0 ∨ x.2 = 1) := by
  intro x hx
  obtain ⟨⟨a, b⟩, hmem, rfl⟩ := List.mem_map.mp hx
  have ha := ht a (List.of_mem_zip hmem).1
  have hb := hp b (List.of_mem_zip hmem).2
  refine ⟨?_, hb⟩
  by_cases h : (a == -1) = true
  · simp [h]
  · simp only [h, Bool.false_eq_true, if_false]
    rcases ha with h' | h' | h'
    · exact absurd (by simp [h']) h
    · exact Or.inl h'
    · exact Or.inr h'

theorem labeledPairs_ranges (t p : List Int)
    (ht : ∀ x ∈ t, x = -1 ∨ x = 0 ∨ x = 1) (hp : ∀ x ∈ p, x = 0 ∨ x = 1) :
    ∀ x ∈ labeledPairs t p, (x.1 = 0 ∨ x.1 = 1) ∧ (x.2 = 0 ∨ x.2 = 1) := by
  intro x hx
  obtain ⟨hmem, hne⟩ := List.mem_filter.mp hx
  have ha := ht x.1 (List.of_mem_zip (by exact hmem)).1
  have hb := hp x.2 (List.of_mem_zip (by exact hmem)).2
  refine ⟨?_, hb⟩
  rcases ha with h' | h' | h'
  · rw [h'] at hne; simp at hne
  · exact Or.inl h'
  · exact Or.inr h'

theorem assumedPairs_length (t p : List Int) (hlen : t.length = p.length) :
    (assumedPairs t p).length = t.length := by
  simp [assumedPairs, List.length_zip, hlen]

theorem labeledPairs_length (t : List Int) :
    ∀ p, t.length = p.length →
      (labeledPairs t p).length = t.countP (fun x => x != -1) := by
  induction t with
  | nil => intro p _; simp [labeledPairs]
  | cons a t ih =>
      intro p h
      cases p with
      | nil => simp at h
      | cons b p' =>
          have h' : t.length = p'.length := by simpa using h
          simp only [labeledPairs, List.zip_cons_cons, List.filter_cons, List.countP_cons]
          by_cases ha : (a != -1) = true
          · simp only [ha, if_true, List.length_cons]
            have := ih p' h'
            simp only [labeledPairs] at this
            omega
          · simp only [ha, Bool.false_eq_true, if_false]
            have := ih p' h'
            simp only [labeledPairs] at this
            omega

/-! ### Concrete evaluations (the kernel cannot reduce Mathlib's `ℚ`
arithmetic, so the rational step `majSamples` is evaluated by
`norm_num` and the rational-free remainder by `decide`) -/

theorem minCount_00011 : minCount [0, 0, 0, 1, 1] = 2 := by decide

theorem majSamples_00011_half : majSamples [0, 0, 0, 1, 1] (1/2) = 4 := by
  unfold majSamples
  rw [minCount_00011]
  norm_num [pyTrunc]
  decide

theorem minCount_001 : minCount [0, 0, 1] = 1 := by decide

theorem majSamples_001_one : majSamples [0, 0, 1] 1 = 1 := by
  unfold majSamples
  rw [minCount_001]
  norm_num [pyTrunc]

theorem majSamples_001_third : majSamples [0, 0, 1] (1/3) = 3 := by
  unfold majSamples
  rw [minCount_001]
  norm_num [pyTrunc]
  decide

theorem minCount_scenario : minCount [1, 1, 0, 0, -1, -1, -1, -1] = 2 := by decide

theorem majSamples_scenario : majSamples [1, 1, 0, 0, -1, -1, -1, -1] 1 = 2 := by
  unfold majSamples
  rw [minCount_scenario]
  norm_num [pyTrunc]
  decide

/-! ## Claim theorems -/

/-- C1 (counterexample): with labels `[0,0,0,1,1]` and ratio `1/2` the
requested majority draw `floor(2 / (1/2)) = 4` exceeds the majority
group's size 3.  The claim says the sampler caps the draw at 3 and does
not raise; the code hands `size=4` to a without-replacement `choice`
over 3 items, which raises `ValueError` — modelled as `none`. -/
theorem infeasible_ratio_errors_cex :
    generate_sample_indices 123 [0, 0, 0, 1, 1] (1/2) = none ∧
    majSamples [0, 0, 0, 1, 1] (1/2) = 4 ∧
    (majorityIdxs [0, 0, 0, 1, 1]).length = 3 := by
  refine ⟨?_, majSamples_00011_half, by decide⟩
  unfold generate_sample_indices
  rw [majSamples_00011_half]
  decide

/-- C1 (amended): for valid ratios and nonempty labels, the majority
draw count equals `floor(minority_count / ρ)` whenever that many
majority rows are available; when `floor(minority_count / ρ)` exceeds
the majority group's size, the sampler raises (the without-replacement
draw fails) instead of capping at availability. -/
theorem majority_draw_floor_or_error (y : List Int) (ρ : ℚ) (seed : Nat)
    (hρ : 1/10 < ρ ∧ ρ ≤ 1) (hy : y ≠ []) :
    (majSamples y ρ ≤ (majorityIdxs y).length →
       ∃ l s2, generate_maj_indices seed y ρ = some (l, s2) ∧
         l.length = majSamples y ρ) ∧
    ((majorityIdxs y).length < majSamples y ρ →
       generate_maj_indices seed y ρ = none ∧
       generate_sample_indices seed y ρ = none) := by
  have hylen : ¬ y.length = 0 := fun h0 => hy (List.length_eq_zero.mp h0)
  constructor
  · intro hfeas
    obtain ⟨l, s2, hcall, hlen, -, -⟩ :=
      choiceNoRep_spec (majSamples y ρ) (majorityIdxs y) seed hfeas
    exact ⟨l, s2, by simp only [generate_maj_indices, if_neg hylen, hcall], hlen⟩
  · intro hinf
    have hnone := choiceNoRep_none (majSamples y ρ) (majorityIdxs y) seed hinf
    constructor
    · simp only [generate_maj_indices, if_neg hylen, hnone]
    · simp only [generate_sample_indices, if_neg hylen, hnone]

/-- C1 (witness): a feasible instance (`[0,0,1]`, ratio 1) where the
draw count is `floor(1/1) = 1`, and an infeasible instance (`[0,0,1]`,
ratio 1/3, requested 3 of 2 available) where the sampler errors. -/
theorem majority_draw_floor_or_error_witness :
    (∃ l s2, generate_maj_indices 7 [0, 0, 1] 1 = some (l, s2) ∧
       l.length = majSamples [0, 0, 1] 1) ∧
    (generate_maj_indices 7 [0, 0, 1] (1/3) = none ∧
     generate_sample_indices 7 [0, 0, 1] (1/3) = none) :=
  ⟨(majority_draw_floor_or_error [0, 0, 1] 1 7 (by norm_num) (by decide)).1
     (by rw [majSamples_001_one]; decide),
   (majority_draw_floor_or_error [0, 0, 1] (1/3) 7 (by norm_num) (by decide)).2
     (by rw [majSamples_001_third]; decide)⟩

/-- C3 (counterexample): with labels `[0,0,1]` and the valid ratio
`1/3`, the sampler returns no plan at all (the majority draw
`floor(1/(1/3)) = 3` exceeds the 2 available majority rows and the
without-replacement draw raises), so it is not the case that every
valid-ratio invocation returns a plan of the described shape. -/
theorem plan_requires_feasible_draw_cex :
    generate_sample_indices 5 [0, 0, 1] (1/3) = none := by
  unfold generate_sample_indices
  rw [majSamples_001_third]
  decide

/-- C3 (amended): for valid ratios, nonempty labels, and a feasible
majority draw (`floor(minority_count/ρ)` at most the majority group's
size), one sampler invocation returns a plan built exactly as claimed:
all minority indices (distinct) plus `floor(minority_count/ρ)` distinct
majority-group indices form a pool of size
`minority_count + floor(minority_count/ρ)`, and the plan is drawn with
replacement from that pool with exactly pool-size draws — its length is
the pool size and each drawn index lies in the pool. -/
theorem sample_plan_structure (y : List Int) (ρ : ℚ) (seed : Nat)
    (hρ : 1/10 < ρ ∧ ρ ≤ 1) (hy : y ≠ [])
    (hfeas : majSamples y ρ ≤ (majorityIdxs y).length) :
    ∃ majDrawn s1 plan,
      generate_maj_indices seed y ρ = some (majDrawn, s1) ∧
      majDrawn.length = majSamples y ρ ∧
      majDrawn.Nodup ∧
      (∀ i ∈ majDrawn, i ∈ majorityIdxs y) ∧
      (minorityIdxs y).Nodup ∧
      generate_sample_indices seed y ρ = some plan ∧
      plan.length = (minorityIdxs y).length + majSamples y ρ ∧
      (∀ i ∈ plan, i ∈ minorityIdxs y ++ majDrawn) := by
  have hylen : ¬ y.length = 0 := fun h0 => hy (List.length_eq_zero.mp h0)
  obtain ⟨majDrawn, s1, hcall, hlen, hsub, hnd⟩ :=
    choiceNoRep_spec (majSamples y ρ) (majorityIdxs y) seed hfeas
  have hpoolne : minorityIdxs y ++ majDrawn ≠ [] := by
    intro hnil
    exact minorityIdxs_ne_nil hy (List.append_eq_nil.mp hnil).1
  obtain ⟨plan, s2, hrep, hplen, hpsub⟩ :=
    choiceRep_spec (minCount y + majSamples y ρ) (minorityIdxs y ++ majDrawn) s1 hpoolne
  refine ⟨majDrawn, s1, plan, ?_, hlen, hnd (majorityIdxs_nodup y), hsub,
    minorityIdxs_nodup y, ?_, hplen, hpsub⟩
  · simp only [generate_maj_indices, if_neg hylen, hcall]
  · simp only [generate_sample_indices, if_neg hylen, hcall, hrep]

/-- C3 (witness): the spec's end-to-end scenario, labels
`[1,1,0,0,-1,-1,-1,-1]` with ratio 1. -/
theorem sample_plan_structure_witness :
    ∃ majDrawn s1 plan,
      generate_maj_indices 42 [1, 1, 0, 0, -1, -1, -1, -1] 1 = some (majDrawn, s1) ∧
      majDrawn.length = majSamples [1, 1, 0, 0, -1, -1, -1, -1] 1 ∧
      majDrawn.Nodup ∧
      (∀ i ∈ majDrawn, i ∈ majorityIdxs [1, 1, 0, 0, -1, -1, -1, -1]) ∧
      (minorityIdxs [1, 1, 0, 0, -1, -1, -1, -1]).Nodup ∧
      generate_sample_indices 42 [1, 1, 0, 0, -1, -1, -1, -1] 1 = some plan ∧
      plan.length = (minorityIdxs [1, 1, 0, 0, -1, -1, -1, -1]).length +
        majSamples [1, 1, 0, 0, -1, -1, -1, -1] 1 ∧
      (∀ i ∈ plan, i ∈ minorityIdxs [1, 1, 0, 0, -1, -1, -1, -1] ++ majDrawn) :=
  sample_plan_structure [1, 1, 0, 0, -1, -1, -1, -1] 1 42
    (by norm_num) (by decide) (by rw [majSamples_scenario]; decide)

/-- C6: `fit` rejects each invalid configuration — `bootstrap=False`, a
target imbalance ratio outside `(0.1, 1]` (including exactly `0.1`,
while exactly `1` is never rejected as a ratio error), and a requested
`n_estimators` below the current tree count under warm start — with an
error raised before any sampling or tree training and before any tree
is appended (an `Except.error` carries no successor state). -/
theorem fit_rejects_invalid_config (m : RFS) (y : List Int) (seed : Nat) :
    (m.bootstrap = false → fit m y seed = .error .bootstrapFalse) ∧
    (m.bootstrap = true →
       ¬ (1/10 < m.target_imbalance_ratio ∧ m.target_imbalance_ratio ≤ 1) →
       fit m y seed = .error .badRatio) ∧
    (m.bootstrap = true → m.target_imbalance_ratio = 1/10 →
       fit m y seed = .error .badRatio) ∧
    (m.bootstrap = true → m.target_imbalance_ratio = 1 →
       fit m y seed ≠ .error .badRatio) ∧
    (m.bootstrap = true →
       (1/10 < m.target_imbalance_ratio ∧ m.target_imbalance_ratio ≤ 1) →
       m.warm_start = true → m.n_estimators < m.estimators_.length →
       fit m y seed = .error .shrinkWarmStart) := by
  refine ⟨?_, ?_, ?_, ?_, ?_⟩
  · intro h; simp [fit, h]
  · intro hb hr
    unfold fit
    rw [hb, if_neg (by decide : ¬ (true = false)), if_pos hr]
  · intro hb hr
    have hbad : ¬ ((1/10 : ℚ) < m.target_imbalance_ratio ∧ m.target_imbalance_ratio ≤ 1) := by
      rw [hr]; intro hcon; exact absurd hcon.1 (lt_irrefl _)
    unfold fit
    rw [hb, if_neg (by decide : ¬ (true = false)), if_pos hbad]
  · intro hb hr
    have hvalid : (1/10 : ℚ) < m.target_imbalance_ratio ∧ m.target_imbalance_ratio ≤ 1 := by
      rw [hr]; norm_num
    unfold fit
    rw [hb, if_neg (by decide : ¬ (true = false)), if_neg (not_not_intro hvalid)]
    simp only []
    by_cases h1 : m.n_estimators < (if m.warm_start = true then m.estimators_ else []).length
    · rw [if_pos h1]; intro hc; cases hc
    · rw [if_neg h1]
      by_cases h2 : m.n_estimators = (if m.warm_start = true then m.estimators_ else []).length
      · rw [if_pos h2]; intro hc; cases hc
      · rw [if_neg h2]
        cases fitTrees (m.n_estimators - (if m.warm_start = true then m.estimators_ else []).length)
            seed y m.target_imbalance_ratio <;> intro hc <;> cases hc
  · intro hb hr hw hlt
    unfold fit
    rw [hb, if_neg (by decide : ¬ (true = false)), if_neg (not_not_intro hr), hw]
    simp only [if_true]
    rw [if_pos hlt]

/-- C6 (witness): each rejection at a concrete configuration, plus the
accepted boundary ratio `1`. -/
theorem fit_rejects_invalid_config_witness :
    fit ⟨5, false, false, 1/2, []⟩ [1, 0] 7 = .error .bootstrapFalse ∧
    fit ⟨5, true, false, 2, []⟩ [1, 0] 7 = .error .badRatio ∧
    fit ⟨5, true, false, 1/10, []⟩ [1, 0] 7 = .error .badRatio ∧
    fit ⟨1, true, true, 1, [[0], [1]]⟩ [1, 0] 7 ≠ .error .badRatio ∧
    fit ⟨1, true, true, 1, [[0], [1]]⟩ [1, 0] 7 = .error .shrinkWarmStart :=
  ⟨(fit_rejects_invalid_config _ [1, 0] 7).1 rfl,
   (fit_rejects_invalid_config _ [1, 0] 7).2.1 rfl (by norm_num),
   (fit_rejects_invalid_config ⟨5, true, false, 1/10, []⟩ [1, 0] 7).2.2.1 rfl rfl,
   (fit_rejects_invalid_config ⟨1, true, true, 1, [[0], [1]]⟩ [1, 0] 7).2.2.2.1 rfl rfl,
   (fit_rejects_invalid_config ⟨1, true, true, 1, [[0], [1]]⟩ [1, 0] 7).2.2.2.2 rfl
     (by norm_num) rfl (by decide)⟩

/-- C10: a warm-start `fit` whose requested `n_estimators` equals the
current number of fitted trees (with an otherwise valid configuration:
`bootstrap=True` and a ratio in `(0.1, 1]`) completes without error,
fits no new trees, leaves the tree collection unchanged, and emits the
warm-start warning (the `true` flag), distinct from the silent `false`
of a tree-growing call. -/
theorem fit_warm_start_noop (m : RFS) (y : List Int) (seed : Nat)
    (hb : m.bootstrap = true)
    (hr : 1/10 < m.target_imbalance_ratio ∧ m.target_imbalance_ratio ≤ 1)
    (hw : m.warm_start = true)
    (hn : m.n_estimators = m.estimators_.length) :
    fit m y seed = .ok (m, true) := by
  obtain ⟨n, b, w, r, e⟩ := m
  dsimp only at hb hw hn ⊢
  subst hb
  subst hw
  unfold fit
  rw [if_neg (by decide : ¬ (true = false)), if_neg (not_not_intro hr)]
  simp only [if_true]
  rw [if_neg (by omega : ¬ n < e.length), if_pos hn]

/-- C10 (witness): a two-tree ensemble refit with `n_estimators = 2`
under warm start returns unchanged with the warning flag. -/
theorem fit_warm_start_noop_witness :
    fit ⟨2, true, true, 1, [[0], [1]]⟩ [1, 0] 3 =
      .ok (⟨2, true, true, 1, [[0], [1]]⟩, true) :=
  fit_warm_start_noop ⟨2, true, true, 1, [[0], [1]]⟩ [1, 0] 3 rfl (by norm_num) rfl rfl

/-- C2: `frankenscorer.py` line 16 imports `labeled_metric`,
`assumed_metric`, `pr_one_unlabeled` and `brier_score_partial_loss`
from `creonmetrics`, none of which `creonmetrics.py` binds (it defines
the metric functions `pu_score`, `prior_squared_error`,
`brier_score_labeled_loss` plus their scorer objects), so the import
raises and the scorer module never loads: every call into
`FrankenScorer.__call__`, `extract_scores_from_nested` or
`extract_score_grid` fails before doing any work. -/
theorem frankenscorer_import_fails :
    frankenscorerModuleLoad =
      .error "ImportError: cannot import name from creonmetrics" ∧
    "labeled_metric" ∉ creonmetrics_names ∧
    "assumed_metric" ∉ creonmetrics_names ∧
    "pr_one_unlabeled" ∉ creonmetrics_names ∧
    "brier_score_partial_loss" ∉ creonmetrics_names ∧
    "pu_score" ∈ creonmetrics_names :=
  ⟨rfl, by decide⟩

/-- C4 (counterexample): the two flattening checks are independent
`if`s, not an `if`/`elif`: a 2x2 entry under key `"cm"` produces five
columns — the four decomposed scalars and the raw matrix kept under its
own name — where the claim says exactly four. -/
theorem matrix_entry_five_columns_cex :
    (extractSplitDict [("cm", Val.mat 1 2 3 4)]).length = 5 ∧
    ("cm", Val.mat 1 2 3 4) ∈ extractSplitDict [("cm", Val.mat 1 2 3 4)] := by decide

/-- C4 (amended): a 2x2 entry is decomposed into four scalar columns
and additionally kept as a matrix column under its own name (unless its
key is `SCORE`); every other entry is kept as one column unless its key
is `SCORE`; the `SCORE` entry is excluded from direct inclusion (a
2x2-valued `SCORE` would still contribute its decomposed columns). -/
theorem extract_entry_refines_amended :
    (∀ k v, extractEntry k v = specExtractEntry k v) ∧
    (∀ d, extractSplitDict d =
       d.foldr (fun kv acc => specExtractEntry kv.1 kv.2 ++ acc) []) := by
  have h : ∀ k v, extractEntry k v = specExtractEntry k v := by
    intro k v
    cases v with
    | scalar q =>
        by_cases hk : k = score_index <;> simp [extractEntry, specExtractEntry, hk]
    | mat a b c d =>
        by_cases hk : k = score_index <;> simp [extractEntry, specExtractEntry, hk]
  refine ⟨h, ?_⟩
  intro d
  induction d with
  | nil => rfl
  | cons kv rest ih => simp [extractSplitDict, h, ih]

/-- C5 (counterexample): with `y_true = [1]` (a true-positive row
present) and `y_pred = [0]` (no predicted positives), `pr_true = 0` and
the returned value is the float `0.0/0.0` — NaN, not a non-negative
score. -/
theorem pu_score_nan_cex :
    0 < ([1] : List Int).countP (· == 1) ∧ pu_score [1] [0] = none := by
  refine ⟨by decide, ?_⟩
  have hc : ([0] : List Int).countP (· == 1) = 0 := by decide
  have h : prOne [0] = 0 := by simp [prOne, hc]
  simp [pu_score, h]

/-- C5 (amended): when at least one row has `y_true = 1` and at least
one row is predicted positive, the recall lies in `[0,1]` and the
returned score is a non-negative rational; when no row has
`y_true = 1`, the denominator-of-1 guard makes the recall exactly 0
(and no exception is raised — with zero predicted positives the float
result is the non-real `0.0/0.0`, modelled as `none`). -/
theorem pu_score_props (t p : List Int) (hlen : t.length = p.length) :
    (0 < t.countP (· == 1) ∧ 0 < p.countP (· == 1) →
       0 ≤ puRecall t p ∧ puRecall t p ≤ 1 ∧
       ∃ s, pu_score t p = some s ∧ 0 ≤ s) ∧
    (t.countP (· == 1) = 0 → puRecall t p = 0) := by
  constructor
  · rintro ⟨-, hp⟩
    have hplen : 0 < p.length := lt_of_lt_of_le hp (List.countP_le_length _)
    have hpr : 0 < prOne p :=
      div_pos (by exact_mod_cast hp) (by exact_mod_cast hplen)
    refine ⟨puRecall_nonneg t p, puRecall_le_one t p,
      puRecall t p * puRecall t p / prOne p, ?_, ?_⟩
    · rw [pu_score, if_neg (ne_of_gt hpr)]
    · exact div_nonneg (mul_self_nonneg _) (le_of_lt hpr)
  · intro h0
    have htp : tpCount t p = 0 := Nat.le_zero.mp (h0 ▸ tpCount_le_countP t p)
    simp [puRecall, htp]

/-- C5 (witness): `y_true = [1,0]`, `y_pred = [1,0]`. -/
theorem pu_score_props_witness :
    0 ≤ puRecall [1, 0] [1, 0] ∧ puRecall [1, 0] [1, 0] ≤ 1 ∧
    ∃ s, pu_score [1, 0] [1, 0] = some s ∧ 0 ≤ s :=
  (pu_score_props [1, 0] [1, 0] rfl).1 (by decide)

/-- C9: `prior_squared_error` returns exactly 0 when no row is
unlabeled (regardless of prior and predictions), is always a
non-negative total function (it never raises), and otherwise returns
the squared gap between the unlabeled predicted-positive rate and the
prior. -/
theorem prior_squared_error_cases (t p : List Int) (prior : ℚ) :
    (t.countP (· == -1) = 0 → prior_squared_error t p prior = 0) ∧
    0 ≤ prior_squared_error t p prior ∧
    (t.countP (· == -1) ≠ 0 →
       prior_squared_error t p prior =
         ((((t.zip p).filter (fun x => x.1 == -1 && x.2 == 1)).length : ℚ) /
            (t.countP (· == -1) : ℚ) - prior) ^ 2) := by
  have hform : t.countP (· == -1) ≠ 0 →
      prior_squared_error t p prior =
        ((((t.zip p).filter (fun x => x.1 == -1 && x.2 == 1)).length : ℚ) /
           (t.countP (· == -1) : ℚ) - prior) ^ 2 := by
    intro h
    unfold prior_squared_error
    simp only []
    rw [if_neg h]
  refine ⟨?_, ?_, hform⟩
  · intro h
    unfold prior_squared_error
    simp only []
    rw [if_pos h]
  · by_cases h : t.countP (· == -1) = 0
    · unfold prior_squared_error
      simp only []
      rw [if_pos h]
    · rw [hform h]
      exact sq_nonneg _

/-- C9 (witness): `y_true = [-1, 0]`, `y_pred = [1, 0]`, prior `1/4`:
the unlabeled rate is 1 and the error is `(1 - 1/4)^2`. -/
theorem prior_squared_error_cases_witness :
    prior_squared_error [-1, 0] [1, 0] (1/4) =
      (((([(-1 : Int), 0].zip [(1 : Int), 0]).filter
            (fun x => x.1 == -1 && x.2 == 1)).length : ℚ) /
          (([(-1 : Int), 0] : List Int).countP (· == -1) : ℚ) - 1/4) ^ 2 :=
  (prior_squared_error_cases [-1, 0] [1, 0] (1/4)).2.2 (by decide)

/-- C7 (counterexample): a fold `y_true = [1, 0, -1]`,
`y_pred = [1, 0, 0]` has 3 rows, but the labeled-only confusion matrix
(`confusion_matrix_lab`, unlabeled row dropped) decomposes into columns
summing to 2, not the fold's row count. -/
theorem labeled_cm_sum_cex :
    extractSplitDict
        [("confusion_matrix_lab", confusionMat (labeledPairs [1, 0, -1] [1, 0, 0]))] =
      [("tn_confusion_matrix_lab", Val.scalar 1),
       ("fp_confusion_matrix_lab", Val.scalar 0),
       ("fn_confusion_matrix_lab", Val.scalar 0),
       ("tp_confusion_matrix_lab", Val.scalar 1),
       ("confusion_matrix_lab", Val.mat 1 0 0 1)] ∧
    (1 + 0 + 0 + 1 : ℚ) ≠ (([1, 0, -1] : List Int).length : ℚ) := by
  constructor
  · rfl
  · norm_num

/-- C7 (amended): for every fold over three-valued labels and binary
predictions, the four decomposed columns of the assumed
(unlabeled-as-negative) confusion matrix sum to the fold's row count,
while those of the labeled-only confusion matrix sum to the number of
labeled rows. -/
theorem cm_sum_roundtrip (t p : List Int) (hlen : t.length = p.length)
    (ht : ∀ x ∈ t, x = -1 ∨ x = 0 ∨ x = 1) (hp : ∀ x ∈ p, x = 0 ∨ x = 1) :
    (∃ tn fp fn tp : ℚ,
       extractSplitDict [("confusion_matrix_un", confusionMat (assumedPairs t p))] =
         [("tn_confusion_matrix_un", Val.scalar tn),
          ("fp_confusion_matrix_un", Val.scalar fp),
          ("fn_confusion_matrix_un", Val.scalar fn),
          ("tp_confusion_matrix_un", Val.scalar tp),
          ("confusion_matrix_un", confusionMat (assumedPairs t p))] ∧
       tn + fp + fn + tp = (t.length : ℚ)) ∧
    (∃ tn fp fn tp : ℚ,
       extractSplitDict [("confusion_matrix_lab", confusionMat (labeledPairs t p))] =
         [("tn_confusion_matrix_lab", Val.scalar tn),
          ("fp_confusion_matrix_lab", Val.scalar fp),
          ("fn_confusion_matrix_lab", Val.scalar fn),
          ("tp_confusion_matrix_lab", Val.scalar tp),
          ("confusion_matrix_lab", confusionMat (labeledPairs t p))] ∧
       tn + fp + fn + tp = (t.countP (fun x => x != -1) : ℚ)) := by
  constructor
  · refine ⟨_, _, _, _, rfl, ?_⟩
    have hkey := countP_four_split (assumedPairs t p) (assumedPairs_ranges t p ht hp)
    rw [assumedPairs_length t p hlen] at hkey
    exact_mod_cast hkey
  · refine ⟨_, _, _, _, rfl, ?_⟩
    have hkey := countP_four_split (labeledPairs t p) (labeledPairs_ranges t p ht hp)
    rw [labeledPairs_length t p hlen] at hkey
    exact_mod_cast hkey

/-- C7 (witness): the fold `y_true = [1, 0, -1]`, `y_pred = [1, 0, 0]`. -/
theorem cm_sum_roundtrip_witness :
    (∃ tn fp fn tp : ℚ,
       extractSplitDict
           [("confusion_matrix_un", confusionMat (assumedPairs [1, 0, -1] [1, 0, 0]))] =
         [("tn_confusion_matrix_un", Val.scalar tn),
          ("fp_confusion_matrix_un", Val.scalar fp),
          ("fn_confusion_matrix_un", Val.scalar fn),
          ("tp_confusion_matrix_un", Val.scalar tp),
          ("confusion_matrix_un", confusionMat (assumedPairs [1, 0, -1] [1, 0, 0]))] ∧
       tn + fp + fn + tp = (([1, 0, -1] : List Int).length : ℚ)) ∧
    (∃ tn fp fn tp : ℚ,
       extractSplitDict
           [("confusion_matrix_lab", confusionMat (labeledPairs [1, 0, -1] [1, 0, 0]))] =
         [("tn_confusion_matrix_lab", Val.scalar tn),
          ("fp_confusion_matrix_lab", Val.scalar fp),
          ("fn_confusion_matrix_lab", Val.scalar fn),
          ("tp_confusion_matrix_lab", Val.scalar tp),
          ("confusion_matrix_lab", confusionMat (labeledPairs [1, 0, -1] [1, 0, 0]))] ∧
       tn + fp + fn + tp = (([1, 0, -1] : List Int).countP (fun x => x != -1) : ℚ)) :=
  cm_sum_roundtrip [1, 0, -1] [1, 0, 0] rfl (by decide) (by decide)

/-- C8: one mean and one (squared) standard-deviation entry is produced
per group of columns sharing a stripped name, and on two test splits
with values `0.8` and `0.9` the mean is `0.85` and the sample variance
is `1/200` — whose square root, the standard deviation pandas reports,
lies strictly between `0.0707` and `0.0708`. -/
theorem score_grid_mean_std :
    (∀ cols : List (String × ℚ),
       (meanStdCols cols).map (fun x => x.1) = scoreLabels cols) ∧
    meanStdCols [("acc_test0", 4/5), ("acc_test1", 9/10)] =
      [("acc_test", 17/20, some (1/200))] ∧
    ((707 : ℚ)/10000) ^ 2 < 1/200 ∧ (1/200 : ℚ) < ((708 : ℚ)/10000) ^ 2 := by
  refine ⟨?_, ?_, by norm_num, by norm_num⟩
  · intro cols
    simp only [meanStdCols, List.map_map]
    induction scoreLabels cols with
    | nil => rfl
    | cons a l ih => simpa using ih
  · have h1 : meanStdCols [("acc_test0", (4 : ℚ)/5), ("acc_test1", 9/10)] =
        [("acc_test", meanQ [4/5, 9/10], sampleVar [4/5, 9/10])] := rfl
    rw [h1]
    have hm : meanQ [(4 : ℚ)/5, 9/10] = 17/20 := by
      simp only [meanQ, List.sum_cons, List.sum_nil, List.length_cons, List.length_nil]
      norm_num
    have hv : sampleVar [(4 : ℚ)/5, 9/10] = some (1/200) := by
      unfold sampleVar
      rw [if_pos (by decide : 2 ≤ ([(4 : ℚ)/5, 9/10]).length)]
      simp only [List.map_cons, List.map_nil, List.sum_cons, List.sum_nil,
        List.length_cons, List.length_nil, hm]
      norm_num
    rw [hm, hv]

end EPI
